import Mathlib

/-!
Verification of the `ai-code-summary` repository.

Shallow embedding of:
- the content chunker of `SimpleCodeSummarizer.summarize_large_code` /
  `LocalLLMSummarizer.summarize_large_code` (fixed-size slicing by character
  count, `content[i:i+chunk_size]` for `i = 0, chunk_size, 2*chunk_size, ...`);
- the dispatch of `summarize_code` (chunk iff `len(content) > threshold`);
- `read_file`, `batch_summarize`, `_write_file` / `write_files_to_tmp_directory`;
- `get_code_files` / `_is_code_file` over a model filesystem tree;
- `get_tree` (`_scan_directory`, `_format_size`, `_format_tree`, header counts).

Python strings are modelled as `List Char` where slicing arithmetic matters
and as Lean `String` where only concatenation and equality matter.  External
effects (the Ollama backend, the OS read) are oracles passed as arguments.
-/

/-! ### ContentChunker: `summarize_large_code`

Python: `chunks = [code_content[i:i+chunk_size] for i in range(0, len(code_content), chunk_size)]`.
For step `W ≥ 1` this takes the first `W` characters, then chunks the rest.
(Python `range` raises `ValueError` on step 0; the `W = 0` branch below is a
guard never exercised by the claims, which assume `W ≥ 1`.) -/
def chunkList (W : Nat) (content : List Char) : List (List Char) :=
  match content with
  | [] => []
  | c :: cs =>
    if W = 0 then []
    else (c :: cs).take W :: chunkList W ((c :: cs).drop W)
termination_by content.length
decreasing_by
  simp only [List.length_drop, List.length_cons]
  omega

/-- Python's `len(code_content) > max_tokens` test (default threshold 4000). -/
def needsChunking (content : List Char) (maxTokens : Nat := 4000) : Bool :=
  content.length > maxTokens

/-- Result of one `summarize_code` call: either the direct single-prompt path
or the chunked path of `summarize_large_code`, carrying the chunks that are
each sent to the backend (default chunk width 3000). -/
inductive SummPath where
  | direct : SummPath
  | chunked : List (List Char) → SummPath
deriving DecidableEq

/-- Is this the chunked path? -/
def SummPath.isChunked : SummPath → Bool
  | .direct => false
  | .chunked _ => true

/-- `summarize_code`: if `len(code_content) > max_tokens` take the
`summarize_large_code` path with chunk width `chunkSize`, else one direct call. -/
def summarize_code (content : List Char) (maxTokens : Nat := 4000)
    (chunkSize : Nat := 3000) : SummPath :=
  if content.length > maxTokens then .chunked (chunkList chunkSize content)
  else .direct

theorem chunkList_nil (W : Nat) : chunkList W [] = [] := by
  simp [chunkList]

theorem chunkList_cons (W : Nat) (hW : W ≠ 0) (c : Char) (cs : List Char) :
    chunkList W (c :: cs) = (c :: cs).take W :: chunkList W ((c :: cs).drop W) := by
  rw [chunkList]
  simp [hW]

theorem chunkList_eq_of_ne_nil (W : Nat) (hW : W ≠ 0) (l : List Char) (hl : l ≠ []) :
    chunkList W l = l.take W :: chunkList W (l.drop W) := by
  cases l with
  | nil => exact absurd rfl hl
  | cons c cs => exact chunkList_cons W hW c cs

/-- Concatenating the chunks in index order restores the content. -/
theorem chunkList_join (W : Nat) (hW : 1 ≤ W) :
    ∀ content : List Char, (chunkList W content).flatten = content := by
  have key : ∀ (n : Nat) (content : List Char), content.length ≤ n →
      (chunkList W content).flatten = content := by
    intro n
    induction n with
    | zero =>
      intro content hlen
      rw [List.length_eq_zero.mp (Nat.le_zero.mp hlen)]
      simp [chunkList]
    | succ n ih =>
      intro content hlen
      cases content with
      | nil => simp [chunkList]
      | cons c cs =>
        rw [chunkList_cons W (by omega) c cs]
        simp only [List.flatten_cons]
        rw [ih ((c :: cs).drop W) (by simp at hlen ⊢; omega)]
        exact List.take_append_drop W (c :: cs)
  exact fun content => key content.length content le_rfl

/-- Every chunk is at most `W` characters long. -/
theorem chunkList_length_le (W : Nat) :
    ∀ content : List Char, ∀ ch ∈ chunkList W content, ch.length ≤ W := by
  have key : ∀ (n : Nat) (content : List Char), content.length ≤ n →
      ∀ ch ∈ chunkList W content, ch.length ≤ W := by
    intro n
    induction n with
    | zero =>
      intro content hlen
      rw [List.length_eq_zero.mp (Nat.le_zero.mp hlen)]
      simp [chunkList]
    | succ n ih =>
      intro content hlen
      cases content with
      | nil => simp [chunkList]
      | cons c cs =>
        by_cases hW : W = 0
        · intro ch hch
          rw [chunkList] at hch
          simp [hW] at hch
        · rw [chunkList_cons W hW c cs]
          intro ch hch
          rcases List.mem_cons.mp hch with h | h
          · subst h; exact List.length_take_le W (c :: cs)
          · exact ih ((c :: cs).drop W) (by simp at hlen ⊢; omega) ch h
  exact fun content => key content.length content le_rfl

/-- No chunk is empty (each chunk covers at least one character). -/
theorem chunkList_ne_nil (W : Nat) (hW : 1 ≤ W) :
    ∀ content : List Char, ∀ ch ∈ chunkList W content, ch ≠ [] := by
  have key : ∀ (n : Nat) (content : List Char), content.length ≤ n →
      ∀ ch ∈ chunkList W content, ch ≠ [] := by
    intro n
    induction n with
    | zero =>
      intro content hlen
      rw [List.length_eq_zero.mp (Nat.le_zero.mp hlen)]
      simp [chunkList]
    | succ n ih =>
      intro content hlen
      cases content with
      | nil => simp [chunkList]
      | cons c cs =>
        rw [chunkList_cons W (by omega) c cs]
        intro ch hch
        rcases List.mem_cons.mp hch with h | h
        · subst h
          simp [List.take_eq_nil_iff]
          omega
        · exact ih ((c :: cs).drop W) (by simp at hlen ⊢; omega) ch h
  exact fun content => key content.length content le_rfl

/-- C1: for every content and every chunk width `W ≥ 1`, concatenating the
chunks produced by fixed-size slicing in index order reproduces the content
exactly (so there is neither overlap nor gap), and every chunk — in
particular the last — has length at most `W`. -/
theorem chunk_round_trip (content : List Char) (W : Nat) (hW : 1 ≤ W) :
    (chunkList W content).flatten = content ∧
    ∀ ch ∈ chunkList W content, ch.length ≤ W ∧ ch ≠ [] := by
  refine ⟨chunkList_join W hW content, fun ch hch => ?_⟩
  exact ⟨chunkList_length_le W content ch hch, chunkList_ne_nil W hW content ch hch⟩

/-- Witness for C1 at a concrete input: content "abcde" with width 2. -/
theorem chunk_round_trip_witness :
    (1 ≤ 2 ∧
      (chunkList 2 ['a', 'b', 'c', 'd', 'e']).flatten = ['a', 'b', 'c', 'd', 'e']) ∧
    chunkList 2 ['a', 'b', 'c', 'd', 'e'] = [['a', 'b'], ['c', 'd'], ['e']] := by
  refine ⟨⟨by decide, (chunk_round_trip ['a', 'b', 'c', 'd', 'e'] 2 (by decide)).1⟩, ?_⟩
  rw [chunkList_cons 2 (by decide)]
  simp only [List.take_succ_cons, List.take_zero, List.drop_succ_cons, List.drop_zero]
  rw [chunkList_cons 2 (by decide)]
  simp only [List.take_succ_cons, List.take_zero, List.drop_succ_cons, List.drop_zero]
  rw [chunkList_cons 2 (by decide)]
  simp only [List.take_succ_cons, List.take_zero, List.take_nil, List.drop_succ_cons,
    List.drop_nil]
  rw [chunkList_nil]

theorem chunkList_eq_nil_iff (W : Nat) (content : List Char) :
    chunkList W content = [] ↔ content = [] ∨ W = 0 := by
  cases content with
  | nil => simp [chunkList]
  | cons c cs =>
    by_cases hW : W = 0
    · rw [chunkList]; simp [hW]
    · rw [chunkList_cons W hW c cs]; simp [hW]

/-- Every chunk except the last has length exactly `W`. -/
theorem chunkList_dropLast_length (W : Nat) (hW : 1 ≤ W) :
    ∀ content : List Char, ∀ ch ∈ (chunkList W content).dropLast, ch.length = W := by
  have key : ∀ (n : Nat) (content : List Char), content.length ≤ n →
      ∀ ch ∈ (chunkList W content).dropLast, ch.length = W := by
    intro n
    induction n with
    | zero =>
      intro content hlen
      rw [List.length_eq_zero.mp (Nat.le_zero.mp hlen)]
      simp [chunkList]
    | succ n ih =>
      intro content hlen
      cases content with
      | nil => simp [chunkList]
      | cons c cs =>
        rw [chunkList_cons W (by omega) c cs]
        by_cases hrest : chunkList W ((c :: cs).drop W) = []
        · simp [hrest]
        · rw [List.dropLast_cons_of_ne_nil hrest]
          intro ch hch
          rcases List.mem_cons.mp hch with h | h
          · subst h
            have hdrop : (c :: cs).drop W ≠ [] := by
              intro hd
              exact hrest (by rw [hd]; exact chunkList_nil W)
            have hlt : W < (c :: cs).length := by
              by_contra hle
              exact hdrop (List.drop_eq_nil_of_le (by omega))
            simp only [List.length_cons] at hlt
            simp only [List.length_take, List.length_cons]
            omega
          · exact ih ((c :: cs).drop W) (by simp at hlen ⊢; omega) ch h
  exact fun content => key content.length content le_rfl

/-- C3: summarization takes the chunked path iff the content length exceeds
the threshold (`maxTokens`, default 4000); the chunked path slices into pieces
of the chunk width (every non-last piece has exactly the width, the last is no
longer than it), and 5000 characters with width 3000 give exactly 2 chunks. -/
theorem chunk_dispatch (content : List Char) (maxTokens : Nat) :
    ((summarize_code content maxTokens 3000).isChunked = true ↔
      maxTokens < content.length) ∧
    (∀ ch ∈ (chunkList 3000 content).dropLast, ch.length = 3000) ∧
    (∀ ch ∈ chunkList 3000 content, ch.length ≤ 3000) ∧
    (content.length = 5000 → (chunkList 3000 content).length = 2) := by
  refine ⟨?_, chunkList_dropLast_length 3000 (by omega) content,
    chunkList_length_le 3000 content, ?_⟩
  · unfold summarize_code
    by_cases h : content.length > maxTokens
    · simp [h, SummPath.isChunked]
    · simp [h, SummPath.isChunked]
  · intro hlen
    have hne : content ≠ [] := by
      intro h; rw [h] at hlen; simp at hlen
    rw [chunkList_eq_of_ne_nil 3000 (by omega) content hne]
    have hdlen : (content.drop 3000).length = 2000 := by
      simp [List.length_drop, hlen]
    have hdne : content.drop 3000 ≠ [] := by
      intro h; rw [h] at hdlen; simp at hdlen
    rw [chunkList_eq_of_ne_nil 3000 (by omega) _ hdne]
    have : (content.drop 3000).drop 3000 = [] :=
      List.drop_eq_nil_of_le (by omega)
    rw [this, chunkList_nil]
    rfl

/-- Witness for C3 at a concrete input: 5000 characters, threshold 4000,
width 3000 — the chunked path is taken and there are exactly 2 chunks. -/
theorem chunk_dispatch_witness :
    (summarize_code (List.replicate 5000 'x') 4000 3000).isChunked = true ∧
    (chunkList 3000 (List.replicate 5000 'x')).length = 2 := by
  have h := chunk_dispatch (List.replicate 5000 'x') 4000
  exact ⟨h.1.mpr (by rw [List.length_replicate]; norm_num),
    h.2.2.2 (by rw [List.length_replicate])⟩

/-! ### `file_manager.read_file`

The OS-level read plus `decode("utf-8", errors="ignore")` is the only
fallible step; it is modelled as an oracle of type `Except String String`
(error description caught by the `except (OSError, UnicodeDecodeError)`
handler, or the decoded text — lossy decoding itself never raises). -/

/-- `read_file(file_path, tree, append_tree)`: on a successful read, when
`append_tree` holds the content becomes
`str(file_path) + "\n" + tree + "\n" + content`; on a caught error the
content is set to `""` (the prepend statement inside the `try` block is never
reached).  Always returns the pair `(file_path, content)`. -/
def read_file (file_path : String) (tree : String) (append_tree : Bool)
    (readOutcome : Except String String) : String × String :=
  match readOutcome with
  | .error _ => (file_path, "")
  | .ok raw =>
    (file_path,
      if append_tree then file_path ++ "\n" ++ tree ++ "\n" ++ raw else raw)

/-- C9 counterexample: on a successful read with tree context, the staged
content is path `"\n"` tree `"\n"` content — a single newline separates the
tree context from the content, so there is no blank line between them. -/
theorem read_file_no_blank_line :
    (read_file "/a" "T" true (.ok "c")).2 = "/a\nT\nc" ∧
    (read_file "/a" "T" true (.ok "c")).2 ≠ "/a" ++ "\n" ++ "T" ++ "\n\n" ++ "c" := by
  exact ⟨rfl, by decide⟩

/-- C9 (amended): when tree context is supplied and the read succeeds, the
staged content is the original path, a newline, the tree-context text, a
newline, then the original content — a single line break (not a blank line)
separates the tree context from the content. -/
theorem read_file_staged_layout (file_path tree raw : String) :
    read_file file_path tree true (.ok raw) =
      (file_path, file_path ++ "\n" ++ tree ++ "\n" ++ raw) := rfl

/-- C10: `read_file` is total (the model is a Lean function, mirroring that
every exception is caught); on an OS or decode error it returns the pair
`(file_path, "")`, and the path-and-tree prefix is not prepended in the error
case even when `append_tree` is true; the first component is always the input
path. -/
theorem read_file_error_empty (file_path tree : String) (append_tree : Bool)
    (e : String) :
    read_file file_path tree append_tree (.error e) = (file_path, "") ∧
    ∀ outcome : Except String String,
      (read_file file_path tree append_tree outcome).1 = file_path := by
  exact ⟨rfl, fun outcome => by cases outcome <;> rfl⟩

/-! ### `LocalLLMSummarizer.batch_summarize` -/

/-- The whitespace characters stripped by Python `str.strip()` (ASCII range;
the sources' contents are ASCII). -/
def pyIsSpace (c : Char) : Bool :=
  c = ' ' || c = '\t' || c = '\n' || c = '\r' || c = '\x0b' || c = '\x0c'

/-- Truthiness of `content.strip()`: some character is not whitespace. -/
def pyStripTruthy (s : String) : Bool :=
  s.toList.any (fun c => !(pyIsSpace c))

/-- `results[k] = v` on a Python dict modelled as an insertion-ordered
association list: overwrite in place if the key exists, else append. -/
def storeAssoc {α : Type} [DecidableEq α] (m : List (α × String)) (k : α)
    (v : String) : List (α × String) :=
  if m.any (fun kv => kv.1 = k) then
    m.map (fun kv => if kv.1 = k then (k, v) else kv)
  else m ++ [(k, v)]

/-- Lookup in the association list. -/
def lookupAssoc {α : Type} [DecidableEq α] (m : List (α × String)) (k : α) :
    Option String :=
  (m.find? (fun kv => kv.1 = k)).map (fun kv => kv.2)

/-- `batch_summarize(file_paths)`: for each file, inside one `try` block,
read the content (`readF`, may raise) and, when `content.strip()` is truthy,
summarize it (`summF`, may raise) and record the summary under
`str(file_path)`; blank content records nothing; the `except` handler records
`"Error: " + str(e)` under the same key and the loop continues. -/
def batchStep (readF : String → Except String String)
    (summF : String → String → Except String String)
    (results : List (String × String)) (file_path : String) :
    List (String × String) :=
  match readF file_path with
  | .error e => storeAssoc results file_path ("Error: " ++ e)
  | .ok content =>
    if pyStripTruthy content then
      match summF content file_path with
      | .error e => storeAssoc results file_path ("Error: " ++ e)
      | .ok s => storeAssoc results file_path s
    else results

/-- The loop of `batch_summarize`, starting from the empty dict `results`. -/
def batch_summarize (readF : String → Except String String)
    (summF : String → String → Except String String)
    (file_paths : List String) : List (String × String) :=
  file_paths.foldl (batchStep readF summF) []

/-- A file is skipped (no entry at all) iff its read succeeds with
empty-or-whitespace-only content. -/
def skipsFile (readF : String → Except String String) (p : String) : Bool :=
  match readF p with
  | .ok content => !pyStripTruthy content
  | .error _ => false

/-- The entry `batch_summarize` is expected to record for one file:
`none` for a skipped file, the summary on success, `"Error: " + str(e)` when
either the read or the summarization raises. -/
def expectedEntry (readF : String → Except String String)
    (summF : String → String → Except String String) (p : String) :
    Option String :=
  match readF p with
  | .error e => some ("Error: " ++ e)
  | .ok content =>
    if pyStripTruthy content then
      match summF content p with
      | .error e => some ("Error: " ++ e)
      | .ok s => some s
    else none

theorem storeAssoc_of_not_mem {α : Type} [DecidableEq α]
    (m : List (α × String)) (k : α) (v : String)
    (h : ∀ kv ∈ m, kv.1 ≠ k) : storeAssoc m k v = m ++ [(k, v)] := by
  unfold storeAssoc
  have hany : m.any (fun kv => kv.1 = k) = false := by
    rw [List.any_eq_false]
    intro kv hkv
    simp [h kv hkv]
  simp [hany]

theorem batchStep_eq (readF : String → Except String String)
    (summF : String → String → Except String String)
    (results : List (String × String)) (p : String) :
    batchStep readF summF results p =
      match expectedEntry readF summF p with
      | none => results
      | some v => storeAssoc results p v := by
  unfold batchStep expectedEntry
  cases readF p with
  | error e => rfl
  | ok content =>
    by_cases ht : pyStripTruthy content
    · simp only [ht, if_true]
      cases summF content p <;> rfl
    · simp [ht]

theorem batchStep_none (readF : String → Except String String)
    (summF : String → String → Except String String)
    (results : List (String × String)) (p : String)
    (h : expectedEntry readF summF p = none) :
    batchStep readF summF results p = results := by
  rw [batchStep_eq, h]

theorem batchStep_some (readF : String → Except String String)
    (summF : String → String → Except String String)
    (results : List (String × String)) (p : String) (v : String)
    (h : expectedEntry readF summF p = some v) :
    batchStep readF summF results p = storeAssoc results p v := by
  rw [batchStep_eq, h]

theorem batch_go (readF : String → Except String String)
    (summF : String → String → Except String String) :
    ∀ (paths : List String) (acc : List (String × String)),
      paths.Nodup → (∀ p ∈ paths, ∀ kv ∈ acc, kv.1 ≠ p) →
      paths.foldl (batchStep readF summF) acc =
        acc ++ paths.filterMap
          (fun p => (expectedEntry readF summF p).map (fun v => (p, v))) := by
  intro paths
  induction paths with
  | nil => intro acc _ _; simp
  | cons p rest ih =>
    intro acc hnd hdisj
    rw [List.foldl_cons]
    cases hE : expectedEntry readF summF p with
    | none =>
      rw [batchStep_none readF summF acc p hE]
      rw [ih acc (List.nodup_cons.mp hnd).2
        (fun q hq kv hkv => hdisj q (List.mem_cons_of_mem p hq) kv hkv)]
      rw [List.filterMap_cons]
      simp [hE]
    | some v =>
      rw [batchStep_some readF summF acc p v hE]
      rw [storeAssoc_of_not_mem acc p v
        (fun kv hkv => hdisj p (List.mem_cons_self p rest) kv hkv)]
      rw [ih (acc ++ [(p, v)]) (List.nodup_cons.mp hnd).2 ?_]
      · rw [List.filterMap_cons]
        simp [hE]
      · intro q hq kv hkv
        rcases List.mem_append.mp hkv with hkv | hkv
        · exact hdisj q (List.mem_cons_of_mem p hq) kv hkv
        · rcases List.mem_singleton.mp hkv with rfl
          intro hqe
          apply (List.nodup_cons.mp hnd).1
          rw [← hqe] at hq
          exact hq

theorem expectedEntry_none_iff (readF : String → Except String String)
    (summF : String → String → Except String String) (p : String) :
    expectedEntry readF summF p = none ↔ skipsFile readF p = true := by
  unfold expectedEntry skipsFile
  cases readF p with
  | error e => simp
  | ok content =>
    by_cases ht : pyStripTruthy content
    · simp only [ht, if_true]
      cases summF content p <;> simp [ht]
    · simp [ht]

theorem batch_length (readF : String → Except String String)
    (summF : String → String → Except String String) (paths : List String) :
    (paths.filterMap
        (fun p => (expectedEntry readF summF p).map (fun v => (p, v)))).length
      = (paths.filter (fun p => !skipsFile readF p)).length := by
  induction paths with
  | nil => rfl
  | cons p rest ih =>
    rw [List.filterMap_cons, List.filter_cons]
    cases hE : expectedEntry readF summF p with
    | none =>
      have hs : skipsFile readF p = true :=
        (expectedEntry_none_iff readF summF p).mp hE
      simp [hs, ih]
    | some v =>
      have hs : ¬ skipsFile readF p = true := by
        intro hs
        rw [(expectedEntry_none_iff readF summF p).mpr hs] at hE
        exact Option.noConfusion hE
      simp [hs, ih]

/-- C2: with pairwise-distinct file paths, the batch loop records — in input
order — exactly one entry per attempted file, except that a file whose read
succeeds with empty or whitespace-only content gets no entry; a file whose
read (or summarization) raises gets a failure entry `"Error: " + str(e)` and
the loop continues past it, so every later file still gets its entry. -/
theorem batch_failure_isolation (readF : String → Except String String)
    (summF : String → String → Except String String)
    (paths : List String) (hnd : paths.Nodup) :
    batch_summarize readF summF paths =
      paths.filterMap
        (fun p => (expectedEntry readF summF p).map (fun v => (p, v))) ∧
    (∀ p e, p ∈ paths → readF p = .error e →
      (p, "Error: " ++ e) ∈ batch_summarize readF summF paths) ∧
    (batch_summarize readF summF paths).length =
      (paths.filter (fun p => !skipsFile readF p)).length := by
  have h1 : batch_summarize readF summF paths =
      paths.filterMap
        (fun p => (expectedEntry readF summF p).map (fun v => (p, v))) := by
    unfold batch_summarize
    exact batch_go readF summF paths [] hnd (by simp)
  refine ⟨h1, ?_, ?_⟩
  · intro p e hp he
    rw [h1]
    apply List.mem_filterMap.mpr
    refine ⟨p, hp, ?_⟩
    unfold expectedEntry
    rw [he]
    rfl
  · rw [h1]
    exact batch_length readF summF paths

/-- Concrete read oracle for the C2 witness: `b.py` raises, `c.py` is
whitespace-only, the others read normally. -/
def readFW : String → Except String String := fun p =>
  if p = "a.py" then .ok "print(1)"
  else if p = "b.py" then .error "boom"
  else if p = "c.py" then .ok "   "
  else .ok "x = 2"

/-- Concrete summarizer oracle for the C2 witness: always succeeds. -/
def summFW : String → String → Except String String :=
  fun _ p => .ok ("sum " ++ p)

/-- Witness for C2 at a concrete input: of four files, the raising one gets a
failure entry, the whitespace-only one gets no entry, and the files after the
failure are still processed. -/
theorem batch_failure_isolation_witness :
    (["a.py", "b.py", "c.py", "d.py"] : List String).Nodup ∧
    batch_summarize readFW summFW ["a.py", "b.py", "c.py", "d.py"] =
      [("a.py", "sum a.py"), ("b.py", "Error: boom"), ("d.py", "sum d.py")] := by
  have h := batch_failure_isolation readFW summFW
    ["a.py", "b.py", "c.py", "d.py"] (by decide)
  exact ⟨by decide, by rw [h.1]; rfl⟩

/-! ### CorpusWriter: `_write_file` / `write_files_to_tmp_directory`

Filesystem paths are modelled as lists of components; the staging area is an
association list from staged path to written content, where writing an
existing path overwrites it. -/

/-- Last component of a path (`Path.name` of the relative path; for a file
strictly under the base directory this is the file's base filename). -/
def lastName (p : List String) : String := p.getLastD ""

/-- `_write_file`: `output_file = output_dir / relative_path.name` — the
staged path is the output directory plus only the base filename
(`relative_path = file_path.relative_to(base_dir)` keeps the last component,
so the directory structure is flattened). -/
def stagedPath (output_dir : List String) (file_path : List String) :
    List String :=
  output_dir ++ [lastName file_path]

/-- The write loop of `write_files_to_tmp_directory`: each `(path, content)`
pair from `read_file` is written at its staged path; `open("w")` on an
existing path overwrites it.  The staging directory starts empty
(`clear_tmp_folder` removes and recreates it). -/
def write_files_to_tmp (output_dir : List String)
    (files : List (List String × String)) : List (List String × String) :=
  files.foldl (fun fs fi => storeAssoc fs (stagedPath output_dir fi.1) fi.2) []

/-- C8: two eligible files with the same basename in different subdirectories
are staged at the same path, and after writing both the staging area holds the
content of the later one — the later write silently overwrites the earlier. -/
theorem flatten_collision (out p1 p2 : List String) (c1 c2 : String)
    (hname : lastName p1 = lastName p2) :
    stagedPath out p1 = stagedPath out p2 ∧
    (∀ p, stagedPath out p = out ++ [lastName p]) ∧
    lookupAssoc (write_files_to_tmp out [(p1, c1), (p2, c2)])
      (stagedPath out p1) = some c2 := by
  have hk : stagedPath out p1 = stagedPath out p2 := by
    unfold stagedPath
    rw [hname]
  refine ⟨hk, fun p => rfl, ?_⟩
  unfold write_files_to_tmp
  rw [List.foldl_cons, List.foldl_cons, List.foldl_nil]
  rw [← hk]
  simp [storeAssoc, lookupAssoc]

/-- Witness for C8 at a concrete input: `src/a/x.py` and `src/b/x.py` staged
into `tmp` collide at `tmp/x.py`, which ends up holding the later content. -/
theorem flatten_collision_witness :
    lastName ["src", "a", "x.py"] = lastName ["src", "b", "x.py"] ∧
    stagedPath ["tmp"] ["src", "a", "x.py"] =
      stagedPath ["tmp"] ["src", "b", "x.py"] ∧
    lookupAssoc
      (write_files_to_tmp ["tmp"]
        [(["src", "a", "x.py"], "one"), (["src", "b", "x.py"], "two")])
      (stagedPath ["tmp"] ["src", "a", "x.py"]) = some "two" := by
  have h := flatten_collision ["tmp"] ["src", "a", "x.py"] ["src", "b", "x.py"]
    "one" "two" (by decide)
  exact ⟨by decide, h.1, h.2.2⟩

/-! ### PathFilter: `get_code_files` / `_is_code_file`

A directory's contents are modelled as a tree of entries; `os.walk` yields,
top-down, each directory's plain files and then descends into its
subdirectories, so directories are never collected into `all_files`. -/

inductive FSEntry where
  | file (name : String) (size : Nat)
  | dir (name : String) (children : List FSEntry)

def FSEntry.name : FSEntry → String
  | .file n _ => n
  | .dir n _ => n

def FSEntry.isDir : FSEntry → Bool
  | .file _ _ => false
  | .dir _ _ => true

/-- The plain files directly inside one directory level, as paths relative
to the walk root (`Path(root) / file`). -/
def levelFiles (pre : List String) (entries : List FSEntry) :
    List (List String) :=
  entries.filterMap fun e =>
    match e with
    | .file n _ => some (pre ++ [n])
    | .dir _ _ => none

/-- The file paths contributed by the subdirectories of one level, in
`os.walk` top-down order. -/
def walkDirs (pre : List String) : List FSEntry → List (List String)
  | [] => []
  | .file _ _ :: rest => walkDirs pre rest
  | .dir n cs :: rest =>
    (levelFiles (pre ++ [n]) cs ++ walkDirs (pre ++ [n]) cs) ++ walkDirs pre rest

/-- `all_files`: every file path under the root in `os.walk` order
(`[Path(root) / file for root, _, files in os.walk(base_dir) for file in files]`),
relative to the base directory. -/
def walkFilePaths (entries : List FSEntry) : List (List String) :=
  levelFiles [] entries ++ walkDirs [] entries

/-- `_CODE_EXTENSIONS` from `file_manager.py` (the entry `"Dockerfile"` can
never equal a `Path.suffix`, which is empty or starts with a dot; the
`file.name == "Dockerfile"` disjunct covers it). -/
def CODE_EXTENSIONS : List String :=
  [".c", ".cpp", ".cs", ".css", ".default", ".html", ".java", ".js", ".jsx",
   ".md", ".py", ".toml", ".ts", ".tsx", ".yml", "Dockerfile"]

/-- Index of the last `'.'` in a filename, if any (`name.rfind('.')`). -/
def rfindDot (cs : List Char) : Option Nat :=
  ((List.range cs.length).filter (fun i => cs.getD i ' ' = '.')).getLast?

/-- `pathlib.PurePath.suffix` of a filename: the part from the last dot,
unless that dot is the first or the last character. -/
def pySuffix (name : String) : String :=
  let cs := name.toList
  match rfindDot cs with
  | some i => if 0 < i ∧ i < cs.length - 1 then (cs.drop i).asString else ""
  | none => ""

/-- `_is_code_file(file)`: `file.suffix in _CODE_EXTENSIONS or
file.name == "Dockerfile"`, where both `suffix` and `name` look only at the
path's last component. -/
def is_code_file (basename : String) : Bool :=
  CODE_EXTENSIONS.contains (pySuffix basename) || basename = "Dockerfile"

/-- `get_code_files(directory, spec)`: collect all walked file paths, keep
the code files, then drop those whose path relative to the base directory
matches the pathspec (`spec.match_file(file.relative_to(base_dir))`,
modelled as a boolean predicate on the relative path). -/
def get_code_files (entries : List FSEntry) (spec : List String → Bool) :
    List (List String) :=
  let all_files := walkFilePaths entries
  let code_files := all_files.filter (fun f => is_code_file (lastName f))
  code_files.filter (fun f => !spec f)

theorem is_code_file_iff (basename : String) :
    is_code_file basename = true ↔
      pySuffix basename ∈ CODE_EXTENSIONS ∨ basename = "Dockerfile" := by
  unfold is_code_file
  simp

/-- C4: the filter returns a path iff it is one of the file paths enumerated
by the walk (so never a directory), its extension is in the registry or its
basename is exactly `Dockerfile`, and its path relative to the root does not
match the ignore spec. -/
theorem get_code_files_spec (entries : List FSEntry)
    (spec : List String → Bool) (p : List String) :
    p ∈ get_code_files entries spec ↔
      (p ∈ walkFilePaths entries ∧
       (pySuffix (lastName p) ∈ CODE_EXTENSIONS ∨ lastName p = "Dockerfile") ∧
       spec p = false) := by
  unfold get_code_files
  simp only [List.mem_filter, Bool.not_eq_true', is_code_file_iff]
  tauto

/-! ### TreeRenderer: `get_tree` -/

/-- `name.startswith('.')`: the first character is a dot. -/
def startsDot (name : String) : Bool :=
  match name.data with
  | '.' :: _ => true
  | _ => false

/-- `_should_include(name)`: `show_hidden or not name.startswith('.')`. -/
def shouldInclude (show_hidden : Bool) (name : String) : Bool :=
  show_hidden || !(startsDot name)

/-- `str.lower()` on one character (ASCII case folding; only ASCII names are
compared here). -/
def pyCharLower (c : Char) : Char :=
  if 'A' ≤ c ∧ c ≤ 'Z' then Char.ofNat (c.toNat + 32) else c

/-- `str.lower()`. -/
def pyLower (s : String) : String := ⟨s.data.map pyCharLower⟩

/-- Python string `<=`: lexicographic comparison by code point. -/
def charListLE : List Char → List Char → Bool
  | [], _ => true
  | _ :: _, [] => false
  | a :: as, b :: bs => if a = b then charListLE as bs else decide (a < b)

/-- The sort-key comparison of `_scan_directory`:
`items.sort(key=lambda x: (not x.is_dir(), x.name.lower()))`, tuples compared
lexicographically with `False < True` — directories before files, then
case-insensitive name order. -/
def scanLE (a b : FSEntry) : Bool :=
  let na := !a.isDir
  let nb := !b.isDir
  if na = nb then charListLE (pyLower a.name).data (pyLower b.name).data
  else !na && nb

/-- Stable insertion into an already sorted list: `x` is placed before the
first `y` with `le x y`, so key-equal elements keep their original order. -/
def insertSorted {α : Type} (le : α → α → Bool) (x : α) : List α → List α
  | [] => [x]
  | y :: ys => if le x y then x :: y :: ys else y :: insertSorted le x ys

/-- Stable insertion sort.  CPython's `list.sort` is a stable sort by the
same key, and a stable sort's output is uniquely determined by key order and
input order, so this yields exactly the list the source's sort produces. -/
def sortStable {α : Type} (le : α → α → Bool) : List α → List α
  | [] => []
  | x :: xs => insertSorted le x (sortStable le xs)

theorem mem_insertSorted {α : Type} (le : α → α → Bool) (x a : α) :
    ∀ l : List α, a ∈ insertSorted le x l ↔ a = x ∨ a ∈ l := by
  intro l
  induction l with
  | nil => simp [insertSorted]
  | cons y ys ih =>
    show a ∈ (if le x y = true then x :: y :: ys else y :: insertSorted le x ys) ↔ _
    by_cases hle : le x y = true
    · rw [if_pos hle]
      simp only [List.mem_cons]
    · rw [if_neg hle]
      simp only [List.mem_cons, ih]
      tauto

theorem mem_sortStable {α : Type} (le : α → α → Bool) (a : α) :
    ∀ l : List α, a ∈ sortStable le l ↔ a ∈ l := by
  intro l
  induction l with
  | nil => simp [sortStable]
  | cons x xs ih =>
    unfold sortStable
    rw [mem_insertSorted]
    simp [ih]

/-- The nested-dict structure built by `_scan_directory`: each entry keeps
its name, whether it is a directory (`'type'`), its `'size'` (0 for
directories) and its `'children'`. -/
inductive TNode where
  | mk (name : String) (isDir : Bool) (size : Nat) (children : List TNode)

/-- One level's items after the hidden filter and the key sort. -/
def scanItems (show_hidden : Bool) (entries : List FSEntry) : List FSEntry :=
  sortStable scanLE (entries.filter (fun e => shouldInclude show_hidden e.name))

/-- `_scan_directory(path, current_depth)`: cut off entirely once
`max_depth is not None and current_depth >= max_depth`; otherwise list the
filtered, sorted items of the level, recursing into subdirectories with
`current_depth + 1` (directories get size 0, files their byte size). -/
def scanList (show_hidden : Bool) (max_depth : Option Nat) (depth : Nat)
    (entries : List FSEntry) : List TNode :=
  if (match max_depth with | some d => decide (d ≤ depth) | none => false) then []
  else
    (scanItems show_hidden entries).attach.map fun x =>
      match x with
      | ⟨.file n s, _⟩ => TNode.mk n false s []
      | ⟨.dir n cs, hmem⟩ =>
        TNode.mk n true 0 (scanList show_hidden max_depth (depth + 1) cs)
termination_by sizeOf entries
decreasing_by
  have h1 := hmem
  unfold scanItems at h1
  rw [mem_sortStable] at h1
  have hm : FSEntry.dir n cs ∈ entries := (List.mem_filter.mp h1).1
  have h2 := List.sizeOf_lt_of_mem hm
  simp only [FSEntry.dir.sizeOf_spec] at h2
  omega

/-- The node built for one scanned item (the loop body of `_scan_directory`). -/
def buildNode (show_hidden : Bool) (max_depth : Option Nat) (depth : Nat) :
    FSEntry → TNode
  | .file n s => TNode.mk n false s []
  | .dir n cs =>
    TNode.mk n true 0 (scanList show_hidden max_depth (depth + 1) cs)

theorem attach_map_of_eq {α β : Type} (l : List α)
    (f : {x // x ∈ l} → β) (g : α → β)
    (h : ∀ (x : α) (hx : x ∈ l), f ⟨x, hx⟩ = g x) :
    l.attach.map f = l.map g := by
  have h1 : l.attach.map f = l.attach.map (fun x => g x.val) := by
    apply List.map_congr_left
    intro x _
    rcases x with ⟨v, hv⟩
    exact h v hv
  rw [h1]
  exact List.attach_map_val l g

/-- Unfolding equation for `scanList`. -/
theorem scanList_eq (show_hidden : Bool) (max_depth : Option Nat) (depth : Nat)
    (entries : List FSEntry) :
    scanList show_hidden max_depth depth entries =
      if (match max_depth with | some d => decide (d ≤ depth) | none => false) then []
      else (scanItems show_hidden entries).map
        (buildNode show_hidden max_depth depth) := by
  rw [scanList.eq_def]
  by_cases hcut :
      (match max_depth with | some d => decide (d ≤ depth) | none => false) = true
  · rw [if_pos hcut, if_pos hcut]
  · rw [if_neg hcut, if_neg hcut]
    apply attach_map_of_eq
    intro x hx
    cases x with
    | file n s => rfl
    | dir n cs => rfl

/-- `count_items(struct)`: the level's length plus, below each directory,
the count of its children. -/
def countItems : List TNode → Nat
  | [] => 0
  | .mk _ isDir _ cs :: rest =>
    1 + (if isDir then countItems cs else 0) + countItems rest

/-- `count_types(struct) = (dirs, files)`: a directory counts 1 plus its
subtree's counts; a file counts 1 file. -/
def countTypes : List TNode → Nat × Nat
  | [] => (0, 0)
  | .mk _ isDir _ cs :: rest =>
    if isDir then
      (1 + (countTypes cs).1 + (countTypes rest).1,
       (countTypes cs).2 + (countTypes rest).2)
    else ((countTypes rest).1, (countTypes rest).2 + 1)

/-- Every directory node in the structure carries size 0. -/
def sizeOkList : List TNode → Bool
  | [] => true
  | .mk _ isDir size cs :: rest =>
    (!isDir || decide (size = 0)) && sizeOkList cs && sizeOkList rest

/-- Nesting depth of a structure: one more than the deepest child list. -/
def depthList : List TNode → Nat
  | [] => 0
  | .mk _ _ _ cs :: rest => max (1 + depthList cs) (depthList rest)

/-- The unit ladder of `_format_size`. -/
def SIZE_NAMES : List String := ["B", "KB", "MB", "GB", "TB"]

/-- The `while size >= 1024.0 and i < len(size_names) - 1` loop of
`_format_size`, dividing by 1024 and stepping the unit index.  The explicit
fuel of 4 is exact: the guard `i < 4` admits at most 4 iterations from
`i = 0`.  Arithmetic is exact rational arithmetic in place of the source's
binary floating point; they agree on every value the claims mention. -/
def sizeLoopF : Nat → ℚ → Nat → ℚ × Nat
  | 0, size, i => (size, i)
  | fuel + 1, size, i =>
    if 1024 ≤ size ∧ i < 4 then sizeLoopF fuel (size / 1024) (i + 1)
    else (size, i)

/-- Round `q * 10` half-to-even, as Python's `format(x, '.1f')` rounds. -/
def pyRound1 (q : ℚ) : ℤ :=
  let t := q * 10
  let f := ⌊t⌋
  let r := t - (f : ℚ)
  if r < 1 / 2 then f
  else if 1 / 2 < r then f + 1
  else if f % 2 = 0 then f else f + 1

/-- `f"{size:.1f}"` for a nonnegative `size`: one digit after the point. -/
def format1f (q : ℚ) : String :=
  let n := (pyRound1 q).toNat
  toString (n / 10) ++ "." ++ toString (n % 10)

/-- `_format_size(size_bytes)`: `"0 B"` for zero; otherwise divide by 1024
until below 1024 or the unit ladder ends, then print the integer part for the
base unit (`f"{int(size)} {size_names[i]}"`) or one decimal place above it
(`f"{size:.1f} {size_names[i]}"`). -/
def formatSize (size_bytes : Nat) : String :=
  if size_bytes = 0 then "0 B"
  else
    let si := sizeLoopF 4 (size_bytes : ℚ) 0
    if si.2 = 0 then toString ⌊si.1⌋ ++ " " ++ SIZE_NAMES.getD si.2 ""
    else format1f si.1 ++ " " ++ SIZE_NAMES.getD si.2 ""

/-- The connector column of one rendered line: one marker per ancestor level
(`"    "` under a last sibling, `"│   "` otherwise), then `"└── "` for the
last sibling of the level, `"├── "` otherwise. -/
def linePre (is_last_list : List Bool) (is_last : Bool) : String :=
  String.join (is_last_list.map fun b => if b then "    " else "│   ") ++
    (if is_last then "└── " else "├── ")

/-- `_format_tree(structure, prefix, is_last_list)`: one line per item —
directories get a trailing `/` and their children indented one level deeper;
files get a ` [size]` suffix only when their size is positive.  (The `pre`
argument is threaded exactly as in the source, which computes but never uses
it for the line text.) -/
def renderList : List TNode → String → List Bool → List String
  | [], _, _ => []
  | .mk n isDir size cs :: rest, pre, is_last_list =>
    (if isDir then
      (linePre is_last_list rest.isEmpty ++ n ++ "/") ::
        renderList cs (pre ++ (if rest.isEmpty then "    " else "│   "))
          (is_last_list ++ [rest.isEmpty])
    else
      [linePre is_last_list rest.isEmpty ++ n ++
        (if size > 0 then " [" ++ formatSize size ++ "]" else "")])
    ++ renderList rest pre is_last_list

/-- The main body of `get_tree` for an existing directory root: scan the
structure; an empty scan renders the `(empty directory)` marker, otherwise a
header (root name, recursive total/directory/file counts), a blank line, and
the formatted tree, joined with newlines. -/
def get_tree (rootName : String) (children : List FSEntry)
    (show_hidden : Bool) (max_depth : Option Nat) : String :=
  let struct := scanList show_hidden max_depth 0 children
  if struct.isEmpty then rootName ++ "/\n└── (empty directory)"
  else
    String.intercalate "\n"
      ([rootName ++ "/",
        "├── Total items: " ++ toString (countItems struct),
        "├── Directories: " ++ toString (countTypes struct).1,
        "└── Files: " ++ toString (countTypes struct).2,
        ""] ++ renderList struct "" [])

theorem sizeOf_lt_of_mem_scanItems (show_hidden : Bool) (entries : List FSEntry)
    (n : String) (cs : List FSEntry)
    (h : FSEntry.dir n cs ∈ scanItems show_hidden entries) :
    sizeOf cs < sizeOf entries := by
  unfold scanItems at h
  rw [mem_sortStable] at h
  have hm := (List.mem_filter.mp h).1
  have h2 := List.sizeOf_lt_of_mem hm
  simp only [FSEntry.dir.sizeOf_spec] at h2
  omega

/-- `count_items` counts one item per directory plus one per file. -/
theorem countItems_eq_types : ∀ nodes : List TNode,
    countItems nodes = (countTypes nodes).1 + (countTypes nodes).2 := by
  have key : ∀ (fuel : Nat) (nodes : List TNode), sizeOf nodes ≤ fuel →
      countItems nodes = (countTypes nodes).1 + (countTypes nodes).2 := by
    intro fuel
    induction fuel with
    | zero =>
      intro nodes h
      cases nodes with
      | nil =>
        rw [countItems.eq_1, countTypes.eq_1]
        simp
      | cons nd rest =>
        exfalso
        cases nd
        simp only [List.cons.sizeOf_spec, TNode.mk.sizeOf_spec] at h
        omega
    | succ fuel ih =>
      intro nodes h
      cases nodes with
      | nil =>
        rw [countItems.eq_1, countTypes.eq_1]
        simp
      | cons nd rest =>
        cases nd with
        | mk n b s cs =>
          have hcs : sizeOf cs ≤ fuel := by
            simp only [List.cons.sizeOf_spec, TNode.mk.sizeOf_spec] at h
            omega
          have hrest : sizeOf rest ≤ fuel := by
            simp only [List.cons.sizeOf_spec, TNode.mk.sizeOf_spec] at h
            omega
          rw [countItems.eq_2, countTypes.eq_2]
          cases b with
          | true =>
            rw [if_pos rfl, if_pos rfl]
            rw [ih cs hcs, ih rest hrest]
            omega
          | false =>
            rw [if_neg (by decide), if_neg (by decide)]
            rw [ih rest hrest]
            omega
  exact fun nodes => key (sizeOf nodes) nodes le_rfl

/-- `_format_tree` emits exactly one line per listed entry. -/
theorem renderList_length : ∀ (nodes : List TNode) (pre : String)
    (is_last_list : List Bool),
    (renderList nodes pre is_last_list).length = countItems nodes := by
  have key : ∀ (fuel : Nat) (nodes : List TNode), sizeOf nodes ≤ fuel →
      ∀ (pre : String) (is_last_list : List Bool),
      (renderList nodes pre is_last_list).length = countItems nodes := by
    intro fuel
    induction fuel with
    | zero =>
      intro nodes h
      cases nodes with
      | nil =>
        intro pre is_last_list
        rw [renderList.eq_1, countItems.eq_1]
        rfl
      | cons nd rest =>
        exfalso
        cases nd
        simp only [List.cons.sizeOf_spec, TNode.mk.sizeOf_spec] at h
        omega
    | succ fuel ih =>
      intro nodes h
      cases nodes with
      | nil =>
        intro pre is_last_list
        rw [renderList.eq_1, countItems.eq_1]
        rfl
      | cons nd rest =>
        cases nd with
        | mk n b s cs =>
          have hcs : sizeOf cs ≤ fuel := by
            simp only [List.cons.sizeOf_spec, TNode.mk.sizeOf_spec] at h
            omega
          have hrest : sizeOf rest ≤ fuel := by
            simp only [List.cons.sizeOf_spec, TNode.mk.sizeOf_spec] at h
            omega
          intro pre is_last_list
          rw [renderList.eq_2, countItems.eq_2]
          cases b with
          | true =>
            rw [if_pos (show true = true from rfl),
              if_pos (show true = true from rfl)]
            simp only [List.length_append, List.length_cons]
            rw [ih cs hcs, ih rest hrest]
            omega
          | false =>
            rw [if_neg (show ¬false = true by decide),
              if_neg (show ¬false = true by decide)]
            simp only [List.length_append, List.length_cons, List.length_nil]
            rw [ih rest hrest]
  exact fun nodes => key (sizeOf nodes) nodes le_rfl

/-- The size invariant of one node: directories carry size 0, and the
children satisfy the invariant too. -/
def nodeCheck : TNode → Bool
  | .mk _ isDir size cs => (!isDir || decide (size = 0)) && sizeOkList cs

theorem sizeOkList_iff : ∀ l : List TNode,
    sizeOkList l = true ↔ ∀ nd ∈ l, nodeCheck nd = true := by
  intro l
  induction l with
  | nil =>
    rw [sizeOkList.eq_1]
    simp
  | cons nd rest ih =>
    cases nd with
    | mk n b s cs =>
      rw [sizeOkList.eq_2]
      simp only [Bool.and_eq_true, List.mem_cons]
      constructor
      · rintro ⟨⟨h1, h2⟩, h3⟩ x hx
        rcases hx with rfl | hx
        · simp only [nodeCheck, Bool.and_eq_true]
          exact ⟨h1, h2⟩
        · exact (ih.mp h3) x hx
      · intro hall
        have hhead := hall (TNode.mk n b s cs) (Or.inl rfl)
        simp only [nodeCheck, Bool.and_eq_true] at hhead
        exact ⟨hhead, ih.mpr (fun x hx => hall x (Or.inr hx))⟩

/-- Every structure produced by `_scan_directory` gives size 0 to every
directory node, at every level. -/
theorem scan_sizeOk (show_hidden : Bool) (max_depth : Option Nat) :
    ∀ (entries : List FSEntry) (depth : Nat),
      sizeOkList (scanList show_hidden max_depth depth entries) = true := by
  have key : ∀ (fuel : Nat) (entries : List FSEntry), sizeOf entries ≤ fuel →
      ∀ depth, sizeOkList (scanList show_hidden max_depth depth entries) = true := by
    intro fuel
    induction fuel with
    | zero =>
      intro entries h depth
      exfalso
      cases entries with
      | nil =>
        simp only [List.nil.sizeOf_spec] at h
        omega
      | cons e rest =>
        simp only [List.cons.sizeOf_spec] at h
        omega
    | succ fuel ih =>
      intro entries h depth
      rw [scanList_eq]
      split
      · rw [sizeOkList.eq_1]
      · rw [sizeOkList_iff]
        intro nd hnd
        rcases List.mem_map.mp hnd with ⟨e, he, rfl⟩
        cases e with
        | file n s =>
          simp [buildNode, nodeCheck, sizeOkList.eq_1]
        | dir n cs =>
          have hlt := sizeOf_lt_of_mem_scanItems show_hidden entries n cs he
          have hok := ih cs (by omega) (depth + 1)
          simp [buildNode, nodeCheck, hok]
  exact fun entries depth => key (sizeOf entries) entries le_rfl depth

/-- Nesting depth of one node: one more than its children's depth. -/
def nodeDepth : TNode → Nat
  | .mk _ _ _ cs => 1 + depthList cs

theorem depthList_le_iff : ∀ (l : List TNode) (k : Nat),
    depthList l ≤ k ↔ ∀ nd ∈ l, nodeDepth nd ≤ k := by
  intro l k
  induction l with
  | nil =>
    rw [depthList.eq_1]
    simp
  | cons nd rest ih =>
    cases nd with
    | mk n b s cs =>
      rw [depthList.eq_2, max_le_iff]
      constructor
      · rintro ⟨h1, h2⟩ x hx
        rcases List.mem_cons.mp hx with rfl | hx
        · simpa [nodeDepth] using h1
        · exact (ih.mp h2) x hx
      · intro hall
        refine ⟨?_, ih.mpr (fun x hx => hall x (List.mem_cons_of_mem _ hx))⟩
        have := hall (TNode.mk n b s cs) (List.mem_cons_self _ _)
        simpa [nodeDepth] using this

/-- With `max_depth = some d`, a scan started at `current_depth = depth`
nests at most `d - depth` further levels. -/
theorem scan_depth_le (show_hidden : Bool) (d : Nat) :
    ∀ (entries : List FSEntry) (depth : Nat),
      depthList (scanList show_hidden (some d) depth entries) ≤ d - depth := by
  have key : ∀ (fuel : Nat) (entries : List FSEntry), sizeOf entries ≤ fuel →
      ∀ depth,
      depthList (scanList show_hidden (some d) depth entries) ≤ d - depth := by
    intro fuel
    induction fuel with
    | zero =>
      intro entries h depth
      exfalso
      cases entries with
      | nil =>
        simp only [List.nil.sizeOf_spec] at h
        omega
      | cons e rest =>
        simp only [List.cons.sizeOf_spec] at h
        omega
    | succ fuel ih =>
      intro entries h depth
      rw [scanList_eq]
      split
      · rw [depthList.eq_1]
        omega
      · rename_i hcut
        have hdlt : depth < d := by
          simp only [decide_eq_true_eq] at hcut
          omega
        rw [depthList_le_iff]
        intro nd hnd
        rcases List.mem_map.mp hnd with ⟨e, he, rfl⟩
        cases e with
        | file n s =>
          simp only [buildNode, nodeDepth]
          rw [depthList.eq_1]
          omega
        | dir n cs =>
          have hlt := sizeOf_lt_of_mem_scanItems show_hidden entries n cs he
          have hrec := ih cs (by omega) (depth + 1)
          simp only [buildNode, nodeDepth]
          omega
  exact fun entries depth => key (sizeOf entries) entries le_rfl depth

/-- C5: with `maxDepth = d` the scanned structure nests at most `d` levels
(entries beyond depth `d` simply do not occur in it), the header counts count
exactly the listed nodes, and the body renders exactly one line per listed
node — so no rendered line corresponds to an entry deeper than `d` and no
extra truncation-marker line is emitted for cut-off subtrees. -/
theorem depth_cutoff (entries : List FSEntry) (show_hidden : Bool) (d : Nat) :
    depthList (scanList show_hidden (some d) 0 entries) ≤ d ∧
    countItems (scanList show_hidden (some d) 0 entries) =
      (countTypes (scanList show_hidden (some d) 0 entries)).1 +
        (countTypes (scanList show_hidden (some d) 0 entries)).2 ∧
    (renderList (scanList show_hidden (some d) 0 entries) "" []).length =
      countItems (scanList show_hidden (some d) 0 entries) := by
  refine ⟨?_, countItems_eq_types _, renderList_length _ "" []⟩
  have h := scan_depth_le show_hidden d entries 0
  simpa using h

/-- C6: in every scanned structure each directory node carries size 0, and
the header's recursive counts satisfy: total item count = directory count +
file count = the number of lines actually listed in the tree body. -/
theorem tree_size_invariant (entries : List FSEntry) (show_hidden : Bool)
    (max_depth : Option Nat) :
    sizeOkList (scanList show_hidden max_depth 0 entries) = true ∧
    countItems (scanList show_hidden max_depth 0 entries) =
      (countTypes (scanList show_hidden max_depth 0 entries)).1 +
        (countTypes (scanList show_hidden max_depth 0 entries)).2 ∧
    (renderList (scanList show_hidden max_depth 0 entries) "" []).length =
      countItems (scanList show_hidden max_depth 0 entries) :=
  ⟨scan_sizeOk show_hidden max_depth entries 0, countItems_eq_types _,
    renderList_length _ "" []⟩

/-- C7 counterexample: a zero-byte file's rendered line carries no size
suffix at all — the `if data['size'] > 0` guard suppresses it — so the line
is the bare name, not the name with an `[0 B]` suffix. -/
theorem zero_size_file_line :
    renderList [TNode.mk "e.txt" false 0 []] "" [] = ["└── e.txt"] ∧
    ("└── e.txt" : String) ≠ "└── e.txt [0 B]" := by
  constructor
  · rw [renderList.eq_2]
    norm_num [linePre, renderList.eq_1]
    decide
  · decide

/-- The scan of the `proj` example directory: empty subdirectory `docs` and
a 2048-byte file `x.txt`, directories sorted first. -/
theorem scanList_proj :
    scanList false none 0 [FSEntry.dir "docs" [], FSEntry.file "x.txt" 2048] =
      [TNode.mk "docs" true 0 [], TNode.mk "x.txt" false 2048 []] := by
  have hinner : scanList false none 1 ([] : List FSEntry) = [] := by
    rw [scanList_eq]
    rfl
  rw [scanList_eq]
  rw [show scanItems false [FSEntry.dir "docs" [], FSEntry.file "x.txt" 2048] =
    [FSEntry.dir "docs" [], FSEntry.file "x.txt" 2048] from rfl]
  rw [List.map_cons, List.map_cons, List.map_nil]
  rw [show buildNode false none 0 (FSEntry.dir "docs" []) =
    TNode.mk "docs" true 0 (scanList false none 1 []) from rfl]
  rw [hinner]
  rfl

/-- C7 (amended): `_format_size` uses binary-1024 scaling over the unit
ladder B/KB/MB/GB/TB with one decimal place above the base unit and maps zero
to `"0 B"`; every file entry of positive size renders as its name plus
` [formatted size]` (a zero-byte file's line carries no suffix); in the
`proj` example the 2048-byte file renders as `└── x.txt [2.0 KB]`. -/
theorem size_suffix_format (n : String) (size : Nat) (cs rest : List TNode)
    (pre : String) (is_last_list : List Bool) (hpos : 0 < size) :
    formatSize 0 = "0 B" ∧
    formatSize 2048 = "2.0 KB" ∧
    SIZE_NAMES = ["B", "KB", "MB", "GB", "TB"] ∧
    renderList (TNode.mk n false size cs :: rest) pre is_last_list =
      (linePre is_last_list rest.isEmpty ++ n ++ " [" ++ formatSize size ++ "]") ::
        renderList rest pre is_last_list ∧
    get_tree "proj" [FSEntry.dir "docs" [], FSEntry.file "x.txt" 2048] false none =
      "proj/\n├── Total items: 2\n├── Directories: 1\n└── Files: 1\n\n├── docs/\n└── x.txt [2.0 KB]" := by
  refine ⟨by norm_num [formatSize], ?_, rfl, ?_, ?_⟩
  · norm_num [formatSize, sizeLoopF, format1f, pyRound1, SIZE_NAMES]
    decide
  · rw [renderList.eq_2, if_neg (show ¬false = true by decide), if_pos hpos,
      List.singleton_append]
    simp [String.append_assoc]
  · unfold get_tree
    rw [scanList_proj]
    simp only [List.isEmpty_cons, Bool.false_eq_true, if_false]
    rw [countItems.eq_2, countItems.eq_2, countItems.eq_1]
    rw [countTypes.eq_2, countTypes.eq_2, countTypes.eq_1]
    rw [renderList.eq_2, renderList.eq_2, renderList.eq_1]
    norm_num [linePre, formatSize, sizeLoopF, format1f, pyRound1, SIZE_NAMES,
      renderList.eq_1]
    decide

/-- Witness for C7 (amended) at a concrete input: the 2048-byte file
`x.txt` rendered as the last entry of a level. -/
theorem size_suffix_format_witness :
    0 < 2048 ∧
    renderList [TNode.mk "x.txt" false 2048 []] "" [] = ["└── x.txt [2.0 KB]"] := by
  have h := size_suffix_format "x.txt" 2048 [] [] "" [] (by decide)
  refine ⟨by decide, ?_⟩
  rw [h.2.2.2.1, h.2.1, renderList.eq_1]
  norm_num [linePre]
  decide
